import Mathlib

/-!
# Haiku-Bot: verification of the text-analysis core

Shallow embedding of `haiku_tweeter.py`: heuristic syllable counting,
noise-line filtering, sliding-window haiku detection, the dedup signature
(SHA-256 over normalised fields) and tweet-text composition.  Python
strings are modelled as Lean `String`/`List Char`, Python `int` as `Int`,
and the regular expressions of the source are modelled by their match
semantics as executable character-list functions.
-/

/-! ## Python string primitives -/

/-- The whitespace characters stripped by Python `str.strip()` (ASCII part:
space, tab, newline, carriage return, vertical tab, form feed). -/
def pyIsSpace (c : Char) : Bool :=
  c = ' ' || c = '\t' || c = '\n' || c = '\r' || c = Char.ofNat 11 || c = Char.ofNat 12

/-- Python `str.strip()` on a character list. -/
def pyStrip (l : List Char) : List Char :=
  ((l.dropWhile pyIsSpace).reverse.dropWhile pyIsSpace).reverse

/-- Python `str.strip()` on a `String`. -/
def pyStripStr (s : String) : String :=
  String.mk (pyStrip s.data)

/-- Python `str.lower()` (ASCII case fold; the source only case-folds before
stripping to `[a-z]` or hashing, where the ASCII fold is what matters). -/
def pyLowerChar (c : Char) : Char :=
  if 'A' ≤ c ∧ c ≤ 'Z' then Char.ofNat (c.toNat + 32) else c

/-- `str.lower()` on a character list. -/
def pyLower (l : List Char) : List Char := l.map pyLowerChar

/-- Membership in the regex class `[a-z]`. -/
def isAsciiLower (c : Char) : Bool := 'a' ≤ c && c ≤ 'z'

/-- Membership in `VOWELS = "aeiouy"` / the regex class `[aeiouy]`. -/
def isVowelChar (c : Char) : Bool :=
  c = 'a' || c = 'e' || c = 'i' || c = 'o' || c = 'u' || c = 'y'

/-- Fuelled worker for `maximalRuns`: at a satisfying character, the whole
maximal run (`takeWhile`) is one group and scanning resumes at its end
(`dropWhile`).  The fuel is only a termination device; `maximalRuns`
supplies enough. -/
def maximalRunsF (p : Char → Bool) : Nat → List Char → List (List Char)
  | _, [] => []
  | 0, _ :: _ => []
  | fuel + 1, c :: rest =>
    if p c then
      ((c :: rest).takeWhile p) :: maximalRunsF p fuel ((c :: rest).dropWhile p)
    else maximalRunsF p fuel rest

/-- The maximal runs of characters satisfying `p`, in order: the match
semantics of `re.findall(r"[X]+", s)` for a character class `X`. -/
def maximalRuns (p : Char → Bool) (l : List Char) : List (List Char) :=
  maximalRunsF p l.length l

/-- Python `w.endswith(suffix)` on character lists. -/
def endsWith (suf : List Char) (l : List Char) : Bool :=
  suf.reverse.isPrefixOf l.reverse

/-! ## Syllable counting (`count_syllables_in_word`) -/

/-- The `special` dict of `count_syllables_in_word`: irregular words whose
heuristic count is overridden. -/
def special : List (String × Int) :=
  [("queue", 1), ("people", 2), ("choir", 1), ("hour", 1), ("our", 1),
   ("fire", 1), ("one", 1), ("two", 1), ("once", 1), ("blood", 1),
   ("breathe", 1), ("breathed", 1), ("every", 2), ("even", 2), ("ever", 2),
   ("business", 2), ("family", 3), ("poem", 2), ("poet", 2), ("quiet", 2),
   ("quietly", 3), ("science", 2), ("giant", 2)]

/-- `w.lower()` followed by `re.sub(r"[^a-z]", "", w)`: the normalised form
of a word. -/
def normalizeWord (word : String) : List Char :=
  (pyLower word.data).filter isAsciiLower

/-- The vowel-group heuristic of `count_syllables_in_word`: the number of
`[aeiouy]+` groups, minus one for a trailing silent `e`, plus one for a
consonant-`le` ending, floored at 1. -/
def heuristicCount (w : List Char) : Int :=
  let groups : Int := ((maximalRuns isVowelChar w).length : Int)
  let s1 : Int :=
    if endsWith ['e'] w && !(endsWith ['l', 'e'] w || endsWith ['y', 'e'] w)
        && decide (groups > 1)
    then groups - 1 else groups
  let s2 : Int :=
    if endsWith ['l', 'e'] w && decide (w.length > 2)
        && !(isVowelChar (w.getD (w.length - 3) ' '))
    then s1 + 1 else s1
  max 1 s2

/-- `count_syllables_in_word` from the source. -/
def count_syllables_in_word (word : String) : Int :=
  let w := normalizeWord word
  if w = [] then 0
  else
    match List.lookup (String.mk w) special with
    | some n => n
    | none => heuristicCount w

/-! ## Line-level syllable counting (`count_syllables_in_line`) -/

/-- Helper for the lazy span `[\[\(].*?[\]\)]`: scan for the first closing
bracket reachable without crossing a newline (which `.` cannot match);
return the characters after it. -/
def findCloseSplit : List Char → Option (List Char)
  | [] => none
  | c :: rest =>
    if c == ']' || c == ')' then some rest
    else if c == '\n' then none
    else findCloseSplit rest

/-- Fuelled scanner for `re.sub(r"[\[\(].*?[\]\)]", "", line)`: at an opening
bracket, if a closing bracket is reachable the whole span is dropped and
scanning resumes after it; otherwise the character is kept.  The fuel is
only a termination device; `removeAnnots` supplies enough. -/
def removeAnnotsF : Nat → List Char → List Char
  | _, [] => []
  | 0, l => l
  | fuel + 1, c :: rest =>
    if c == '[' || c == '(' then
      match findCloseSplit rest with
      | some r => removeAnnotsF fuel r
      | none => c :: removeAnnotsF fuel rest
    else c :: removeAnnotsF fuel rest

/-- `re.sub(r"[\[\(].*?[\]\)]", "", line)`: remove bracketed/parenthesized
annotation spans. -/
def removeAnnots (l : List Char) : List Char := removeAnnotsF l.length l

/-- Modelled from the spec: `count_syllables_in_line` transliterates the
line with the external `unidecode` library ("transliterate non-ASCII
letters to their closest ASCII equivalent"), which is not part of this
repository.  Modelled as the identity on ASCII with a table of common
accented letters; other non-ASCII characters are dropped. -/
def unidecodeChar (c : Char) : List Char :=
  if c.toNat < 128 then [c]
  else if c ∈ ['à', 'á', 'â', 'ã', 'ä', 'å'] then ['a']
  else if c ∈ ['è', 'é', 'ê', 'ë'] then ['e']
  else if c ∈ ['ì', 'í', 'î', 'ï'] then ['i']
  else if c ∈ ['ò', 'ó', 'ô', 'õ', 'ö'] then ['o']
  else if c ∈ ['ù', 'ú', 'û', 'ü'] then ['u']
  else if c ∈ ['ý', 'ÿ'] then ['y']
  else if c == 'ñ' then ['n']
  else if c == 'ç' then ['c']
  else if c == '’' then [Char.ofNat 39]
  else if c == '—' then ['-', '-']
  else []

/-- The `unidecode` transliteration lifted to a character list. -/
def unidecodeStr (l : List Char) : List Char := (l.map unidecodeChar).flatten

/-- Membership in the word-extraction class `[A-Za-z']`. -/
def isWordChar (c : Char) : Bool :=
  ('A' ≤ c && c ≤ 'Z') || ('a' ≤ c && c ≤ 'z') || c = Char.ofNat 39

/-- `count_syllables_in_line` from the source: drop annotation spans,
transliterate, extract maximal `[A-Za-z']+` runs as words, and sum
`count_syllables_in_word` over them. -/
def count_syllables_in_line (line : String) : Int :=
  ((maximalRuns isWordChar (unidecodeStr (removeAnnots line.data))).map
    (fun w => count_syllables_in_word (String.mk w))).sum

/-! ## Noise-line filtering (`is_noise_line`) -/

/-- Scanner for the tail of `^\s*[\[\(].*?[\]\)]\s*$` after the opening
bracket: some closing bracket must be reached without crossing a newline,
with only whitespace after it. -/
def closeThenWs : List Char → Bool
  | [] => false
  | c :: rest =>
    if (c == ']' || c == ')') && rest.all pyIsSpace then true
    else if c == '\n' then false
    else closeThenWs rest

/-- `re.search(r"^\s*[\[\(].*?[\]\)]\s*$", line)`: the stage-cue test. -/
def bracketNoise (l : List Char) : Bool :=
  match l.dropWhile pyIsSpace with
  | [] => false
  | c :: rest => (c == '[' || c == '(') && closeThenWs rest

/-- The fixed filler alternatives `la|na|yeah|ya|uh` of the ad-lib regex
(the `o+h` alternative is handled separately). -/
def fixedToks : List (List Char) :=
  [['l', 'a'], ['n', 'a'], ['y', 'e', 'a', 'h'], ['y', 'a'], ['u', 'h']]

/-- Membership in the separator class `[ ,\-!?.]` of the ad-lib regex. -/
def isSepChar (c : Char) : Bool :=
  c = ' ' || c = ',' || c = '-' || c = '!' || c = '?' || c = '.'

/-- The one way (if any) in which `o+h` can match a prefix of `s`: all the
leading `o`s followed by an `h`. -/
def ohSplit (s : List Char) : Option (List Char × List Char) :=
  let k := (s.takeWhile (fun c => c == 'o')).length
  if k = 0 then none
  else
    match s.drop k with
    | c :: r => if c == 'h' then some (s.take k ++ ['h'], r) else none
    | [] => none

/-- All ways a single alternative of `(la|na|o+h|yeah|ya|uh)` can match a
prefix of `s`, as (token, remainder) pairs. -/
def tokenSplits (s : List Char) : List (List Char × List Char) :=
  (fixedToks.filterMap
    (fun t => if t.isPrefixOf s then some (t, s.drop t.length) else none))
    ++ (match ohSplit s with | some p => [p] | none => [])

/-- Fuelled matcher for `([ ,\-!?.]*\1)*` against `s` where `\1 = t`: each
repetition strips separators and then requires the token `t`.  Since every
alternative starts with a letter and separators are non-letters, the
separator consumption is deterministic. -/
def matchRepsF (t : List Char) : Nat → List Char → Bool
  | _, [] => true
  | 0, _ :: _ => false
  | fuel + 1, c :: rest =>
    let s1 := (c :: rest).dropWhile isSepChar
    !t.isEmpty && t.isPrefixOf s1 && matchRepsF t fuel (s1.drop t.length)

/-- `([ ,\-!?.]*\1)*` must consume `s` exactly, with `\1 = t`. -/
def matchReps (t s : List Char) : Bool := matchRepsF t s.length s

/-- Fuelled matcher for the full ad-lib pattern
`(la|na|o+h|yeah|ya|uh)+([ ,\-!?.]*\1)*` against `s`: consume one
alternative, then either stop the `+` (making that alternative the
captured `\1`) and match the repetitions, or continue the `+`. -/
def fillerF : Nat → List Char → Bool
  | 0, _ => false
  | fuel + 1, s =>
    (tokenSplits s).any (fun p => matchReps p.1 p.2 || fillerF fuel p.2)

/-- `re.fullmatch(r"(la|na|o+h|yeah|ya|uh)+([ ,\-!?.]*\1)*", s)`. -/
def fillerMatch (s : List Char) : Bool := fillerF s.length s

/-- `is_noise_line` from the source: blank lines, whole-line stage cues,
and whole-line repeated ad-lib filler. -/
def is_noise_line (line : String) : Bool :=
  if (pyStrip line.data).isEmpty then true
  else if bracketNoise line.data then true
  else fillerMatch (pyLower (pyStrip line.data))

/-! ## The Haiku entity -/

/-- The `Haiku` dataclass: provenance, the three lines, and their
syllable counts. -/
structure Haiku where
  title : String
  artist : String
  lines : String × String × String
  syllables : Int × Int × Int
deriving DecidableEq

/-- `Haiku.text`: the three lines joined with newlines. -/
def Haiku.text (h : Haiku) : String :=
  h.lines.1 ++ "\n" ++ h.lines.2.1 ++ "\n" ++ h.lines.2.2

/-! ## Haiku detection (`find_haikus_in_lyrics`) -/

/-- `lyrics.replace("\r\n", "\n").replace("\r", "\n")`: every CRLF pair and
every remaining lone CR becomes LF. -/
def normNewlines : List Char → List Char
  | [] => []
  | '\r' :: '\n' :: rest => '\n' :: normNewlines rest
  | '\r' :: rest => '\n' :: normNewlines rest
  | c :: rest => c :: normNewlines rest

/-- Python `str.split("\n")` (keeps empty pieces; `"".split("\n") == [""]`). -/
def splitNl (l : List Char) : List (List Char) :=
  l.foldr
    (fun c acc =>
      match acc with
      | g :: gs => if c == '\n' then [] :: g :: gs else (c :: g) :: gs
      | [] => [[c]])
    [[]]

/-- `find_haikus_in_lyrics` from the source: normalise newlines, split into
stripped lines, drop noise lines, and emit a `Haiku` for every window of
three consecutive surviving lines whose syllable counts are `(5, 7, 5)`. -/
def find_haikus_in_lyrics (title artist lyrics : String) : List Haiku :=
  let raw := (splitNl (normNewlines lyrics.data)).map (fun ln => String.mk (pyStrip ln))
  let lines := raw.filter (fun ln => !(is_noise_line ln))
  (List.range (lines.length - 2)).filterMap (fun i =>
    match lines.drop i with
    | a :: b :: c :: _ =>
      let s1 := count_syllables_in_line a
      let s2 := count_syllables_in_line b
      let s3 := count_syllables_in_line c
      if (s1, s2, s3) = ((5 : Int), 7, 5) then
        some { title := title, artist := artist, lines := (a, b, c),
               syllables := (s1, s2, s3) }
      else none
    | _ => none)

/-! ## Tweet composition (`compose_tweet_text`) -/

/-- `compose_tweet_text` from the source: body plus full attribution when it
fits in 280 characters, else body plus title, else the body truncated to
280 characters (also the no-attribution path). -/
def compose_tweet_text (h : Haiku) (include_attrib : Bool) : String :=
  let body := pyStripStr h.text
  if include_attrib then
    let attrib := "\n\n— " ++ h.title ++ " by " ++ h.artist
    let candidate := body ++ attrib
    if candidate.length ≤ 280 then candidate
    else
      let candidate2 := body ++ "\n\n— " ++ h.title
      if candidate2.length ≤ 280 then candidate2
      else String.mk (body.data.take 280)
  else String.mk (body.data.take 280)

/-! ## SHA-256 (`hashlib.sha256` as used by `Haiku.signature`)

The signature hashes UTF-8 bytes of the normalised fields with SHA-256 and
returns the lowercase hex digest.  Bytes are modelled as `Nat` below 256 and
words as `Nat` below `2^32`. -/

/-- `2^32`, the word modulus of SHA-256. -/
def M32 : Nat := 4294967296

/-- Right rotation of a 32-bit word. -/
def rotr32 (n x : Nat) : Nat := (x >>> n) ||| ((x <<< (32 - n)) % M32)

/-- Three-way xor. -/
def xor3 (a b c : Nat) : Nat := (a ^^^ b) ^^^ c

/-- SHA-256 Σ₀. -/
def bsig0 (x : Nat) : Nat := xor3 (rotr32 2 x) (rotr32 13 x) (rotr32 22 x)

/-- SHA-256 Σ₁. -/
def bsig1 (x : Nat) : Nat := xor3 (rotr32 6 x) (rotr32 11 x) (rotr32 25 x)

/-- SHA-256 σ₀. -/
def ssig0 (x : Nat) : Nat := xor3 (rotr32 7 x) (rotr32 18 x) (x >>> 3)

/-- SHA-256 σ₁. -/
def ssig1 (x : Nat) : Nat := xor3 (rotr32 17 x) (rotr32 19 x) (x >>> 10)

/-- SHA-256 `Ch(e,f,g)`; the complement of a 32-bit word `e` is
`2^32 - 1 - e`. -/
def chF (e f g : Nat) : Nat := (e &&& f) ^^^ ((4294967295 - e) &&& g)

/-- SHA-256 `Maj(a,b,c)`. -/
def majF (a b c : Nat) : Nat := ((a &&& b) ^^^ (a &&& c)) ^^^ (b &&& c)

/-- The SHA-256 round constants (FIPS 180-4), in decimal. -/
def K256 : List Nat :=
  [1116352408, 1899447441, 3049323471, 3921009573, 961987163,
   1508970993, 2453635748, 2870763221, 3624381080, 310598401,
   607225278, 1426881987, 1925078388, 2162078206, 2614888103,
   3248222580, 3835390401, 4022224774, 264347078, 604807628,
   770255983, 1249150122, 1555081692, 1996064986, 2554220882,
   2821834349, 2952996808, 3210313671, 3336571891, 3584528711,
   113926993, 338241895, 666307205, 773529912, 1294757372,
   1396182291, 1695183700, 1986661051, 2177026350, 2456956037,
   2730485921, 2820302411, 3259730800, 3345764771, 3516065817,
   3600352804, 4094571909, 275423344, 430227734, 506948616,
   659060556, 883997877, 958139571, 1322822218, 1537002063,
   1747873779, 1955562222, 2024104815, 2227730452, 2361852424,
   2428436474, 2756734187, 3204031479, 3329325298]

/-- The SHA-256 initial hash state, in decimal. -/
def H256 : List Nat :=
  [1779033703, 3144134277, 1013904242, 2773480762, 1359893119,
   2600822924, 528734635, 1541459225]

/-- Big-endian byte representation of `v` in `n` bytes. -/
def beBytes (n v : Nat) : List Nat :=
  (List.range n).map (fun i => (v >>> (8 * (n - 1 - i))) % 256)

/-- SHA-256 padding: `0x80`, zeros to 56 mod 64, then the bit length as
eight big-endian bytes. -/
def sha256pad (msg : List Nat) : List Nat :=
  let rem := (msg.length + 1) % 64
  msg ++ [128] ++ List.replicate ((120 - rem) % 64) 0 ++ beBytes 8 (8 * msg.length)

/-- Split a padded message into 64-byte blocks. -/
def chunk64 (l : List Nat) : List (List Nat) :=
  (List.range (l.length / 64)).map (fun i => (l.drop (64 * i)).take 64)

/-- The 16 big-endian message words of one block. -/
def words16 (block : List Nat) : List Nat :=
  (List.range 16).map (fun i =>
    block.getD (4 * i) 0 * 16777216 + block.getD (4 * i + 1) 0 * 65536 +
    block.getD (4 * i + 2) 0 * 256 + block.getD (4 * i + 3) 0)

/-- Extend 16 message words to the 64-word schedule. -/
def extendW (w : List Nat) : List Nat :=
  (List.range 48).foldl
    (fun acc _ =>
      let n := acc.length
      acc ++ [(ssig1 (acc.getD (n - 2) 0) + acc.getD (n - 7) 0 +
               ssig0 (acc.getD (n - 15) 0) + acc.getD (n - 16) 0) % M32])
    w

/-- One SHA-256 round on the 8-word working state. -/
def sha256round (st : List Nat) (kw : Nat × Nat) : List Nat :=
  match st with
  | [a, b, c, d, e, f, g, h] =>
    let t1 := (h + bsig1 e + chF e f g + kw.1 + kw.2) % M32
    let t2 := (bsig0 a + majF a b c) % M32
    [(t1 + t2) % M32, a, b, c, (d + t1) % M32, e, f, g]
  | other => other

/-- Compress one 64-byte block into the hash state. -/
def sha256block (H : List Nat) (block : List Nat) : List Nat :=
  let st := (K256.zip (extendW (words16 block))).foldl sha256round H
  (H.zip st).map (fun p => (p.1 + p.2) % M32)

/-- SHA-256 of a byte list, as the eight 32-bit state words. -/
def sha256 (msg : List Nat) : List Nat :=
  (chunk64 (sha256pad msg)).foldl sha256block H256

/-- A lowercase hex digit. -/
def hexDigit (n : Nat) : Char := "0123456789abcdef".data.getD n 'x'

/-- Eight hex digits of a 32-bit word. -/
def hex32 (x : Nat) : List Char :=
  (List.range 8).map (fun i => hexDigit ((x >>> (4 * (7 - i))) % 16))

/-- `hashlib.sha256(...).hexdigest()`: the 64-character lowercase digest. -/
def sha256hex (msg : List Nat) : String :=
  String.mk ((sha256 msg).map hex32).flatten

/-- UTF-8 encoding of one character (Python `str.encode()`). -/
def utf8Char (c : Char) : List Nat :=
  let n := c.toNat
  if n < 128 then [n]
  else if n < 2048 then [192 + n / 64, 128 + n % 64]
  else if n < 65536 then [224 + n / 4096, 128 + (n / 64) % 64, 128 + n % 64]
  else [240 + n / 262144, 128 + (n / 4096) % 64, 128 + (n / 64) % 64, 128 + n % 64]

/-- UTF-8 bytes of a string. -/
def utf8Bytes (s : String) : List Nat := (s.data.map utf8Char).flatten

/-! ## The dedup signature (`Haiku.signature`) -/

/-- One `h.update(field.strip().lower().encode())` step of `signature`. -/
def sigField (s : String) : List Nat :=
  utf8Bytes (String.mk (pyLower (pyStrip s.data)))

/-- The full byte message hashed by `Haiku.signature`: the three normalised
fields concatenated (successive `update` calls hash the concatenation). -/
def Haiku.sigMessage (h : Haiku) : List Nat :=
  sigField h.title ++ sigField h.artist ++ sigField h.text

/-- `Haiku.signature`: the SHA-256 hex digest of the normalised
title/artist/text concatenation. -/
def Haiku.signature (h : Haiku) : String := sha256hex h.sigMessage

/-! ## Specification-side definitions

These follow the wording of the specification / claims, to be compared
with the definitions embedded from the source. -/

/-- Spec side (C3): number of maximal vowel runs, counted as the number of
positions where a vowel starts a new run (a vowel not preceded by a
vowel); `prev` records whether the previous character was a vowel. -/
def runStartsAux (p : Char → Bool) : List Char → Bool → Nat
  | [], _ => 0
  | c :: rest, prev =>
    (if p c && !prev then 1 else 0) + runStartsAux p rest (p c)

/-- Spec side (C3): the number of maximal runs of characters from
`{a,e,i,o,u,y}`. -/
def vowelRunCount (w : List Char) : Nat := runStartsAux isVowelChar w false

/-- Spec side (C3): the heuristic as the claim states it — maximal vowel
runs, minus 1 for a word ending in `e` (but not `le`/`ye`) when the raw
count exceeds 1, plus 1 for a word ending in `le` with a consonant
immediately before the `le`, floored at 1 for a non-empty word. -/
def specHeuristicCount (w : List Char) : Int :=
  if w = [] then 0
  else
    let raw : Int := (vowelRunCount w : Int)
    let afterSilentE : Int :=
      if endsWith ['e'] w && !(endsWith ['l', 'e'] w || endsWith ['y', 'e'] w)
          && decide (raw > 1)
      then raw - 1 else raw
    let afterLe : Int :=
      if endsWith ['l', 'e'] w && decide (w.length > 2)
          && !(isVowelChar (w.getD (w.length - 3) ' '))
      then afterSilentE + 1 else afterSilentE
    max 1 afterLe

/-- Spec side (C1): the detector as the claim states it — split the text
into lines, remove noise lines, and for every index `i` from `0` to
`len(contentLines) - 3` inclusive emit a Haiku built from the triplet
`contentLines[i..i+2]` and `(5, 7, 5)` exactly when the three per-line
syllable counts are 5, 7 and 5. -/
def detect_spec (title artist lyrics : String) : List Haiku :=
  let contentLines :=
    ((splitNl (normNewlines lyrics.data)).map
      (fun ln => String.mk (pyStrip ln))).filter (fun ln => !(is_noise_line ln))
  (List.range (contentLines.length - 2)).filterMap (fun i =>
    match contentLines[i]?, contentLines[i + 1]?, contentLines[i + 2]? with
    | some a, some b, some c =>
      if count_syllables_in_line a = 5 ∧ count_syllables_in_line b = 7 ∧
          count_syllables_in_line c = 5 then
        some { title := title, artist := artist, lines := (a, b, c),
               syllables := (5, 7, 5) }
      else none
    | _, _, _ => none)

/-- A single filler token: one of the fixed alternatives, or `o+h`. -/
def IsFillerTok (t : List Char) : Prop :=
  t ∈ fixedToks ∨ ∃ k, 0 < k ∧ t = List.replicate k 'o' ++ ['h']

/-- A (possibly empty) run of separator characters. -/
def IsSepRun (sp : List Char) : Bool := sp.all isSepChar

/-- Spec side (C6/C10): the repeated-filler language — one or more filler
tokens in sequence (`pre ++ [t]`), followed by any number of repetitions
of separator padding plus the token `t` captured by the filler group,
i.e. the last token of the initial run. -/
def FillerLang (s : List Char) : Prop :=
  ∃ (pre : List (List Char)) (t : List Char) (reps : List (List Char)),
    (∀ u ∈ pre, IsFillerTok u) ∧ IsFillerTok t ∧
    (∀ rep ∈ reps, ∃ sp, IsSepRun sp = true ∧ rep = sp ++ t) ∧
    s = pre.flatten ++ t ++ reps.flatten

/-- Spec side (C6): a line that, after trimming, consists entirely of a
single bracketed or parenthesized span: an opening bracket, a (non-newline)
interior, and a closing bracket. -/
def BracketedSpan (t : List Char) : Prop :=
  ∃ op mid cl, (op = '[' ∨ op = '(') ∧ (cl = ']' ∨ cl = ')') ∧
    '\n' ∉ mid ∧ t = op :: (mid ++ [cl])

/-- Claim side (C10): tail of the claim's reading of the filler rule — an
already-fixed token `t` (the FIRST filler token), then any further filler
tokens, then repetitions of separators plus `t`. -/
def fillerFirstTail (t : List Char) : Nat → List Char → Bool
  | 0, s => matchReps t s
  | fuel + 1, s =>
    matchReps t s || (tokenSplits s).any (fun p => fillerFirstTail t fuel p.2)

/-- Claim side (C10): the filler rule as claim C10 words it — the
repetitions must repeat the token captured by the FIRST filler match. -/
def fillerFirstMatch (s : List Char) : Bool :=
  (tokenSplits s).any (fun p => fillerFirstTail p.1 s.length p.2)

/-- Claim side (C10): `is_noise_line` with the repeated-filler rule
replaced by the claim's first-token reading (the other two rules as in the
source). -/
def is_noise_line_firstTok (line : String) : Bool :=
  if (pyStrip line.data).isEmpty then true
  else if bracketNoise line.data then true
  else fillerFirstMatch (pyLower (pyStrip line.data))

/-- The normalised (stripped, lower-cased) form of a field, as used both by
the signature and by the case/whitespace-insensitive comparison of C4. -/
def normField (s : String) : String := String.mk (pyLower (pyStrip s.data))

/-- The stripped tweet body of C7 (`h.text.strip()`). -/
def bodyOf (h : Haiku) : String := pyStripStr h.text

/-- The full attribution suffix of C7. -/
def attribFull (h : Haiku) : String := "\n\n— " ++ h.title ++ " by " ++ h.artist

/-- The title-only attribution suffix of C7. -/
def attribTitle (h : Haiku) : String := "\n\n— " ++ h.title

/-- A concrete detected haiku used as the C5 witness. -/
def demoHaiku : Haiku :=
  { title := "t", artist := "ar",
    lines := ("a a a a a", "a a a a a a a", "a a a a a"),
    syllables := (5, 7, 5) }

/-- A concrete haiku with a 302-character body, used as the C7 witness. -/
def bigHaiku : Haiku :=
  { title := "T", artist := "A",
    lines := (String.mk (List.replicate 100 'x'),
              String.mk (List.replicate 100 'y'),
              String.mk (List.replicate 100 'z')),
    syllables := (5, 7, 5) }

/-- C4 witness pair, first element: differs from the second only in case
and in leading/trailing whitespace of the title, the artist, the start of
the first line and the end of the last line. -/
def sigHaikuA : Haiku :=
  { title := "Song", artist := "ART",
    lines := ("Hello", "world", "again"), syllables := (5, 7, 5) }

/-- C4 witness pair, second element. -/
def sigHaikuB : Haiku :=
  { title := " song ", artist := "art",
    lines := (" hello", "world", "again "), syllables := (5, 7, 5) }

/-- C4 counterexample pair, first element: trailing whitespace on the
first line only. -/
def cexHaikuA : Haiku :=
  { title := "s", artist := "a", lines := ("x ", "y", "z"),
    syllables := (5, 7, 5) }

/-- C4 counterexample pair, second element. -/
def cexHaikuB : Haiku :=
  { title := "s", artist := "a", lines := ("x", "y", "z"),
    syllables := (5, 7, 5) }

/-- The content lines of a lyric text: split on any newline convention,
strip each line, drop noise lines (the pipeline shared by the detector and
the specification). -/
def contentLines (lyrics : String) : List String :=
  ((splitNl (normNewlines lyrics.data)).map
    (fun ln => String.mk (pyStrip ln))).filter (fun ln => !(is_noise_line ln))

/-- A lyric whose five content lines count 5,7,5,7,5 syllables: windows 0
and 2 both match, sharing the middle line. -/
def overlapLyrics : String :=
  "a a a a a\na a a a a a a\nb b b b b\nb b b b b b b\ne e e e e"

/-- The first haiku detected in `overlapLyrics`. -/
def overlapHaiku1 : Haiku :=
  { title := "t", artist := "ar2",
    lines := ("a a a a a", "a a a a a a a", "b b b b b"),
    syllables := (5, 7, 5) }

/-- The second haiku detected in `overlapLyrics`; its first line is the
last line of the first. -/
def overlapHaiku2 : Haiku :=
  { title := "t", artist := "ar2",
    lines := ("b b b b b", "b b b b b b b", "e e e e e"),
    syllables := (5, 7, 5) }

/-! ## Concrete evaluations of the embedded functions -/

example : count_syllables_in_word "queue" = 1 := by decide
example : count_syllables_in_word "table" = 3 := by decide
example : count_syllables_in_word "" = 0 := by decide
example : count_syllables_in_word "apple" = 3 := by decide
example : count_syllables_in_word "people" = 2 := by decide
example : count_syllables_in_word "a" = 1 := by decide
example : count_syllables_in_word "hello" = 2 := by decide
example : count_syllables_in_line "a a a a a" = 5 := by decide
example : count_syllables_in_line "hello world" = 3 := by decide
example : count_syllables_in_line "hello (yeah) world" = 3 := by decide
example : count_syllables_in_line "[Chorus] hello" = 2 := by decide
example : count_syllables_in_line "" = 0 := by decide
example : is_noise_line "" = true := by decide
example : is_noise_line "   " = true := by decide
example : is_noise_line "[Chorus]" = true := by decide
example : is_noise_line "(Verse 1)" = true := by decide
example : is_noise_line "la la la" = true := by decide
example : is_noise_line "yeah, yeah" = true := by decide
example : is_noise_line "Walking down the street" = false := by decide
example : is_noise_line "la na la" = false := by decide
example : is_noise_line "lana na" = true := by decide
example : is_noise_line "ooh ooh ooh" = true := by decide
example : is_noise_line "oh ooh" = false := by decide
example : is_noise_line "La, La-La" = true := by decide
example : is_noise_line "la la la!" = false := by decide
example : is_noise_line "[a] b [c]" = true := by decide
example :
    find_haikus_in_lyrics "t" "a" "a a a a a\n[Chorus]\na a a a a a a\n\na a a a a" =
      [{ title := "t", artist := "a",
         lines := ("a a a a a", "a a a a a a a", "a a a a a"),
         syllables := (5, 7, 5) }] := by decide
example : find_haikus_in_lyrics "t" "a" "" = [] := by decide
example : find_haikus_in_lyrics "t" "a" "a a a a a\na a a a a a a" = [] := by decide
example :
    compose_tweet_text
      { title := "T", artist := "A", lines := ("x", "y", "z"),
        syllables := (5, 7, 5) } true = "x\ny\nz\n\n— T by A" := by decide
example : sha256hex [] =
    "e3b0c44298fc1c149afbf4c8996fb92427ae41e4649b934ca495991b7852b855" := by decide
example : sha256hex (utf8Bytes "abc") =
    "ba7816bf8f01cfea414140de5dae2223b00361a396177a9cb410ff61f20015ad" := by decide

/-! ## Helper lemmas -/

/-- A successful association-list lookup returns one of the stored values. -/
theorem lookupValueProp {α β : Type} [BEq α] {P : β → Prop} :
    ∀ {l : List (α × β)} {k : α} {v : β},
      (∀ p ∈ l, P p.2) → List.lookup k l = some v → P v := by
  intro l
  induction l with
  | nil => intro k v _ hl; simp [List.lookup] at hl
  | cons a as ih =>
    intro k v hall hl
    rw [List.lookup] at hl
    by_cases hk : (k == a.1) = true
    · simp [hk] at hl
      exact hl ▸ hall a (by simp)
    · simp [hk] at hl
      exact ih (fun p hp => hall p (by simp [hp])) hl

/-- The heuristic count is floored at 1. -/
theorem one_le_heuristicCount (w : List Char) : 1 ≤ heuristicCount w := by
  simp only [heuristicCount]
  exact le_max_left _ _

/-- `count_syllables_in_word` is non-negative for every input. -/
theorem countWord_nonneg (w : String) : 0 ≤ count_syllables_in_word w := by
  unfold count_syllables_in_word
  by_cases hw : normalizeWord w = []
  · rw [if_pos hw]
  · rw [if_neg hw]
    cases hl : List.lookup (String.mk (normalizeWord w)) special with
    | some n =>
      simp only []
      exact lookupValueProp (P := fun v => (0 : Int) ≤ v) (by decide) hl
    | none =>
      simp only []
      exact le_trans zero_le_one (one_le_heuristicCount _)

/-- `count_syllables_in_line` is non-negative for every input. -/
theorem countLine_nonneg (line : String) : 0 ≤ count_syllables_in_line line := by
  unfold count_syllables_in_line
  apply List.sum_nonneg
  intro x hx
  simp only [List.mem_map] at hx
  obtain ⟨w, _, rfl⟩ := hx
  exact countWord_nonneg _

/-- `dropWhile` never lengthens a list. -/
theorem dropWhile_length_le (p : Char → Bool) :
    ∀ l : List Char, (l.dropWhile p).length ≤ l.length := by
  intro l
  induction l with
  | nil => simp
  | cons c rest ih =>
    rw [List.dropWhile_cons]
    by_cases hc : p c = true
    · rw [if_pos hc]
      exact le_trans ih (Nat.le_succ _)
    · rw [if_neg hc]

/-- `maximalRunsF` does not depend on the fuel once it covers the list
length. -/
theorem maximalRunsF_congr (p : Char → Bool) :
    ∀ (n m : Nat) (l : List Char), l.length ≤ n → l.length ≤ m →
      maximalRunsF p n l = maximalRunsF p m l := by
  intro n
  induction n with
  | zero =>
    intro m l hn _
    have : l = [] := List.eq_nil_of_length_eq_zero (Nat.le_zero.mp hn)
    subst this
    cases m <;> rfl
  | succ n ih =>
    intro m l hn hm
    cases l with
    | nil => cases m <;> rfl
    | cons c rest =>
      cases m with
      | zero => exact absurd hm (by simp)
      | succ m =>
        simp only [maximalRunsF]
        have hrest : rest.length ≤ n := by simp only [List.length_cons] at hn; omega
        have hrest2 : rest.length ≤ m := by simp only [List.length_cons] at hm; omega
        by_cases hc : p c = true
        · rw [if_pos hc, if_pos hc]
          have hd : ((c :: rest).dropWhile p).length ≤ rest.length := by
            rw [List.dropWhile_cons, if_pos hc]
            exact dropWhile_length_le p rest
          exact congrArg _ (ih m _ (le_trans hd hrest) (le_trans hd hrest2))
        · rw [if_neg hc, if_neg hc]
          exact ih m rest hrest hrest2

/-- Span characterization of `maximalRuns` at a satisfying head: the first
run is the maximal prefix, the rest come from the remainder. -/
theorem maximalRuns_cons_pos (p : Char → Bool) (c : Char) (rest : List Char)
    (hc : p c = true) :
    maximalRuns p (c :: rest) =
      ((c :: rest).takeWhile p) :: maximalRuns p ((c :: rest).dropWhile p) := by
  unfold maximalRuns
  simp only [List.length_cons, maximalRunsF, if_pos hc]
  refine congrArg _ (maximalRunsF_congr p rest.length _ _ ?_ le_rfl)
  rw [List.dropWhile_cons, if_pos hc]
  exact dropWhile_length_le p rest

/-- `maximalRuns` skips a non-satisfying head. -/
theorem maximalRuns_cons_neg (p : Char → Bool) (c : Char) (rest : List Char)
    (hc : p c = false) :
    maximalRuns p (c :: rest) = maximalRuns p rest := by
  unfold maximalRuns
  simp only [List.length_cons, maximalRunsF, hc, Bool.false_eq_true, if_false]

/-- Counting run starts equals counting maximal runs (`prev` records being
inside a run, whose remainder is then skipped). -/
theorem runStartsAux_eq (p : Char → Bool) :
    ∀ (l : List Char) (prev : Bool),
      runStartsAux p l prev =
        (maximalRuns p (if prev then l.dropWhile p else l)).length := by
  intro l
  induction l with
  | nil =>
    intro prev
    cases prev <;> simp [runStartsAux, maximalRuns, maximalRunsF]
  | cons c rest ih =>
    intro prev
    by_cases hc : p c = true
    · cases prev
      · simp only [runStartsAux, hc, Bool.not_false, Bool.and_true, if_true,
          Bool.false_eq_true, if_false, ih]
        rw [maximalRuns_cons_pos p c rest hc]
        simp only [List.length_cons, if_true]
        rw [List.dropWhile_cons, if_pos hc]
        omega
      · simp only [runStartsAux, hc, Bool.not_true, Bool.and_false,
          Bool.false_eq_true, if_false, if_true, ih]
        rw [List.dropWhile_cons, if_pos hc]
        omega
    · have hcf : p c = false := by
        cases hpc : p c
        · rfl
        · exact absurd hpc hc
      cases prev <;>
        simp [runStartsAux, hcf, ih, maximalRuns_cons_neg p c rest hcf,
          List.dropWhile_cons]

/-- A `String` built from a truncated character list has the truncated
length. -/
theorem strTakeLength (l : List Char) (n : Nat) :
    (String.mk (l.take n)).length = min n l.length := by
  simp [String.length]

/-- String length is the length of the character data. -/
theorem strLength_data (s : String) : s.length = s.data.length := rfl

/-- Appending strings appends their character data. -/
theorem strData_append (a b : String) : (a ++ b).data = a.data ++ b.data := rfl

/-- String append is associative. -/
theorem strAppend_assoc : ∀ (a b c : String), (a ++ b) ++ c = a ++ (b ++ c)
  | ⟨la⟩, ⟨lb⟩, ⟨lc⟩ => congrArg String.mk (List.append_assoc la lb lc)

/-- String append adds lengths. -/
theorem strLength_append : ∀ (a b : String), (a ++ b).length = a.length + b.length
  | ⟨la⟩, ⟨lb⟩ => List.length_append la lb

/-! ## Claim theorems -/

/-- C2: the spec's example values for `countWord`.  The code disagrees on
two of them: `count_syllables_in_word` returns 3 (not 2) for both "table"
and "apple", because the trailing `e` of a `-le` word is already counted
as a vowel group, the silent-`e` subtraction is skipped for `-le` words,
and the consonant-`le` correction still adds 1.  This theorem evaluates
the code at the claim's inputs. -/
theorem claim_c2_examples_code_eval :
    count_syllables_in_word "table" = 3 ∧
    count_syllables_in_word "queue" = 1 ∧
    count_syllables_in_word "" = 0 ∧
    count_syllables_in_word "apple" = 2 + 1 := by decide

/-- C3: for every word with no exact lookup-table match,
`count_syllables_in_word` equals the claim's heuristic — the number of
maximal vowel runs (counted as run starts), minus 1 for a trailing silent
`e` (not `le`/`ye`) when the raw count exceeds 1, plus 1 for a
consonant-`le` ending, floored at 1 for a word non-empty after
stripping. -/
theorem claim_c3_heuristic (w : String)
    (hl : List.lookup (String.mk (normalizeWord w)) special = none) :
    count_syllables_in_word w = specHeuristicCount (normalizeWord w) := by
  unfold count_syllables_in_word specHeuristicCount
  by_cases hw : normalizeWord w = []
  · rw [if_pos hw, if_pos hw]
  · rw [if_neg hw, if_neg hw, hl]
    have he : runStartsAux isVowelChar (normalizeWord w) false
        = (maximalRuns isVowelChar (normalizeWord w)).length := by
      rw [runStartsAux_eq]
      simp
    simp only [heuristicCount, vowelRunCount, he]

/-- Witness for C3 at the concrete word "table". -/
theorem claim_c3_heuristic_witness :
    List.lookup (String.mk (normalizeWord "table")) special = none ∧
    count_syllables_in_word "table" = specHeuristicCount (normalizeWord "table") :=
  ⟨by decide, claim_c3_heuristic "table" (by decide)⟩

/-- C8: a word that still has letters after stripping counts at least one
syllable. -/
theorem claim_c8_at_least_one (w : String) (hw : normalizeWord w ≠ []) :
    1 ≤ count_syllables_in_word w := by
  unfold count_syllables_in_word
  rw [if_neg hw]
  cases hl : List.lookup (String.mk (normalizeWord w)) special with
  | some n => exact lookupValueProp (P := fun v => (1 : Int) ≤ v) (by decide) hl
  | none => exact one_le_heuristicCount _

/-- Witness for C8 at the concrete word "hello". -/
theorem claim_c8_at_least_one_witness :
    normalizeWord "hello" ≠ [] ∧ 1 ≤ count_syllables_in_word "hello" :=
  ⟨by decide, claim_c8_at_least_one "hello" (by decide)⟩

/-- C9: the counters, the noise filter and the detector are total Lean
functions on every string; the counters are non-negative, the filter
always classifies, and empty lyrics give the empty result rather than an
error. -/
theorem claim_c9_totality :
    (∀ w : String, 0 ≤ count_syllables_in_word w) ∧
    (∀ line : String, 0 ≤ count_syllables_in_line line) ∧
    (∀ line : String, is_noise_line line = true ∨ is_noise_line line = false) ∧
    (∀ t a : String, find_haikus_in_lyrics t a "" = []) := by
  refine ⟨countWord_nonneg, countLine_nonneg, ?_, ?_⟩
  · intro line
    cases h : is_noise_line line
    · right; rfl
    · left; rfl
  · intro t a
    rfl

/-- C5: every Haiku the detector emits carries syllable counts exactly
`(5, 7, 5)`. -/
theorem claim_c5_syllables (t a l : String) (h : Haiku)
    (hm : h ∈ find_haikus_in_lyrics t a l) : h.syllables = (5, 7, 5) := by
  simp only [find_haikus_in_lyrics, List.mem_filterMap] at hm
  obtain ⟨i, _, hf⟩ := hm
  split at hf
  case _ a b c rest =>
    split at hf
    case isTrue hcond =>
      cases hf
      exact hcond
    case isFalse => exact absurd hf (by simp)
  case _ => exact absurd hf (by simp)

/-- Witness for C5: a concrete lyric whose detector output contains a
haiku, whose syllables are `(5, 7, 5)` by the theorem. -/
theorem claim_c5_syllables_witness :
    demoHaiku ∈ find_haikus_in_lyrics "t" "ar" "a a a a a\na a a a a a a\na a a a a" ∧
    demoHaiku.syllables = (5, 7, 5) :=
  ⟨by decide,
   claim_c5_syllables "t" "ar" "a a a a a\na a a a a a a\na a a a a" demoHaiku
     (by decide)⟩

/-- C7: `compose_tweet_text` always stays within 280 characters; it
returns body plus full attribution when that fits, else body plus title
when that fits, else (and always without attribution) the body truncated
to 280 characters; and when the body alone exceeds 280 characters the
result is exactly the 280-character prefix of the body. -/
theorem claim_c7_compose (h : Haiku) (flag : Bool) :
    (compose_tweet_text h flag).length ≤ 280 ∧
    compose_tweet_text h flag =
      (if flag then
        (if (bodyOf h ++ attribFull h).length ≤ 280 then bodyOf h ++ attribFull h
         else if (bodyOf h ++ "\n\n— " ++ h.title).length ≤ 280 then
           bodyOf h ++ "\n\n— " ++ h.title
         else String.mk ((bodyOf h).data.take 280))
       else String.mk ((bodyOf h).data.take 280)) ∧
    (280 < (bodyOf h).length →
      compose_tweet_text h flag = String.mk ((bodyOf h).data.take 280) ∧
      (compose_tweet_text h flag).length = 280) := by
  have hB : compose_tweet_text h flag =
      (if flag then
        (if (bodyOf h ++ attribFull h).length ≤ 280 then bodyOf h ++ attribFull h
         else if (bodyOf h ++ "\n\n— " ++ h.title).length ≤ 280 then
           bodyOf h ++ "\n\n— " ++ h.title
         else String.mk ((bodyOf h).data.take 280))
       else String.mk ((bodyOf h).data.take 280)) := by
    cases flag <;> rfl
  have htake : (String.mk ((bodyOf h).data.take 280)).length
      = min 280 (bodyOf h).length := strTakeLength _ _
  refine ⟨?_, hB, ?_⟩
  · rw [hB]
    cases flag
    · simp only [Bool.false_eq_true, if_false]
      rw [htake]
      exact min_le_left _ _
    · simp only [if_true]
      split_ifs with h1 h2
      · exact h1
      · exact h2
      · rw [htake]
        exact min_le_left _ _
  · intro hbig
    have hc1 : ¬ ((bodyOf h ++ attribFull h).length ≤ 280) := by
      rw [strLength_append]
      omega
    have hc2 : ¬ ((bodyOf h ++ "\n\n— " ++ h.title).length ≤ 280) := by
      rw [strLength_append, strLength_append]
      omega
    have hres : compose_tweet_text h flag = String.mk ((bodyOf h).data.take 280) := by
      rw [hB]
      cases flag
      · rfl
      · simp only [if_true]
        rw [if_neg hc1, if_neg hc2]
    refine ⟨hres, ?_⟩
    rw [hres, htake]
    omega

set_option maxRecDepth 8000 in
/-- Witness for C7: a haiku whose body exceeds 280 characters is truncated
to exactly 280. -/
theorem claim_c7_compose_witness :
    280 < (bodyOf bigHaiku).length ∧
    (compose_tweet_text bigHaiku true).length = 280 :=
  ⟨by decide, ((claim_c7_compose bigHaiku true).2.2 (by decide)).2⟩

/-- C4 as stated is false: these two haikus have identical
(title, artist, lines) under case-insensitive comparison after trimming
each component — they differ only in trailing whitespace of the first
line — yet `signature` trims only the ends of the joined text, so the
hashed messages differ and so do the signatures. -/
theorem claim_c4_signature_counterexample :
    (normField cexHaikuA.title = normField cexHaikuB.title ∧
     normField cexHaikuA.artist = normField cexHaikuB.artist ∧
     normField cexHaikuA.lines.1 = normField cexHaikuB.lines.1 ∧
     normField cexHaikuA.lines.2.1 = normField cexHaikuB.lines.2.1 ∧
     normField cexHaikuA.lines.2.2 = normField cexHaikuB.lines.2.2) ∧
    cexHaikuA.signature ≠ cexHaikuB.signature := by
  constructor
  · refine ⟨by decide, by decide, by decide, by decide, by decide⟩
  · decide

/-- C4 amended: two Haiku values whose title, artist and joined line text
agree after trimming leading/trailing whitespace (of each of title,
artist, and the joined text as a whole) and lower-casing produce
identical signatures. -/
theorem claim_c4_signature_amended (h1 h2 : Haiku)
    (ht : normField h1.title = normField h2.title)
    (ha : normField h1.artist = normField h2.artist)
    (hx : normField h1.text = normField h2.text) :
    h1.signature = h2.signature := by
  have hmsg : h1.sigMessage = h2.sigMessage := by
    unfold Haiku.sigMessage
    have e1 : sigField h1.title = sigField h2.title := by
      show utf8Bytes (normField h1.title) = utf8Bytes (normField h2.title)
      rw [ht]
    have e2 : sigField h1.artist = sigField h2.artist := by
      show utf8Bytes (normField h1.artist) = utf8Bytes (normField h2.artist)
      rw [ha]
    have e3 : sigField h1.text = sigField h2.text := by
      show utf8Bytes (normField h1.text) = utf8Bytes (normField h2.text)
      rw [hx]
    rw [e1, e2, e3]
  unfold Haiku.signature
  rw [hmsg]

/-- Witness for the amended C4 at a concrete pair differing only in case
and outer whitespace. -/
theorem claim_c4_signature_amended_witness :
    normField sigHaikuA.title = normField sigHaikuB.title ∧
    normField sigHaikuA.artist = normField sigHaikuB.artist ∧
    normField sigHaikuA.text = normField sigHaikuB.text ∧
    sigHaikuA.signature = sigHaikuB.signature :=
  ⟨by decide, by decide, by decide,
   claim_c4_signature_amended sigHaikuA sigHaikuB (by decide) (by decide)
     (by decide)⟩

/-- A list longer than two elements starts with three. -/
theorem exists_three_of_len {α : Type} (l : List α) (h : 2 < l.length) :
    ∃ x y z rest, l = x :: y :: z :: rest := by
  cases l with
  | nil => simp at h
  | cons x l1 =>
    cases l1 with
    | nil => simp at h
    | cons y l2 =>
      cases l2 with
      | nil => simp at h
      | cons z rest => exact ⟨x, y, z, rest, rfl⟩

/-- C1: the detector equals the specification's description — noise lines
removed, every window `contentLines[i..i+2]` with per-line counts
`(5, 7, 5)` emitted in increasing `i`; fewer than 3 content lines give the
empty result; and overlapping windows are independent, shown on a
concrete lyric where windows 0 and 2 both fire and share a line. -/
theorem claim_c1_detector :
    (∀ t a l : String, find_haikus_in_lyrics t a l = detect_spec t a l) ∧
    (∀ t a l : String, (contentLines l).length < 3 →
      find_haikus_in_lyrics t a l = []) ∧
    (find_haikus_in_lyrics "t" "ar2" overlapLyrics =
        [overlapHaiku1, overlapHaiku2] ∧
      overlapHaiku1.lines.2.2 = overlapHaiku2.lines.1) := by
  refine ⟨?_, ?_, by decide, by decide⟩
  · intro t a l
    simp only [find_haikus_in_lyrics, detect_spec]
    apply List.filterMap_congr
    intro i hi
    rw [List.mem_range] at hi
    have h3 : i + 3 ≤ (contentLines l).length := by
      have : (contentLines l).length =
          (((splitNl (normNewlines l.data)).map
            (fun ln => String.mk (pyStrip ln))).filter
              (fun ln => !(is_noise_line ln))).length := rfl
      omega
    have hlen : 2 < ((contentLines l).drop i).length := by
      rw [List.length_drop]
      omega
    obtain ⟨x, y, z, rest, hd⟩ := exists_three_of_len _ hlen
    have g0 : (contentLines l)[i]? = some x := by
      have hq := List.getElem?_drop (contentLines l) i 0
      rw [hd] at hq
      simpa using hq.symm
    have g1 : (contentLines l)[i + 1]? = some y := by
      have hq := List.getElem?_drop (contentLines l) i 1
      rw [hd] at hq
      simpa using hq.symm
    have g2 : (contentLines l)[i + 2]? = some z := by
      have hq := List.getElem?_drop (contentLines l) i 2
      rw [hd] at hq
      simpa using hq.symm
    have hd2 : (((splitNl (normNewlines l.data)).map
        (fun ln => String.mk (pyStrip ln))).filter
          (fun ln => !(is_noise_line ln))).drop i = x :: y :: z :: rest := hd
    rw [hd2, show (((splitNl (normNewlines l.data)).map
        (fun ln => String.mk (pyStrip ln))).filter
          (fun ln => !(is_noise_line ln)))[i]? = some x from g0,
      show (((splitNl (normNewlines l.data)).map
        (fun ln => String.mk (pyStrip ln))).filter
          (fun ln => !(is_noise_line ln)))[i + 1]? = some y from g1,
      show (((splitNl (normNewlines l.data)).map
        (fun ln => String.mk (pyStrip ln))).filter
          (fun ln => !(is_noise_line ln)))[i + 2]? = some z from g2]
    show (if (count_syllables_in_line x, count_syllables_in_line y,
            count_syllables_in_line z) = ((5 : Int), 7, 5) then
          some ({ title := t, artist := a, lines := (x, y, z),
                  syllables := (count_syllables_in_line x,
                    count_syllables_in_line y, count_syllables_in_line z) } : Haiku)
        else none) =
      (if count_syllables_in_line x = 5 ∧ count_syllables_in_line y = 7 ∧
            count_syllables_in_line z = 5 then
          some ({ title := t, artist := a, lines := (x, y, z),
                  syllables := ((5 : Int), 7, 5) } : Haiku)
        else none)
    by_cases hc : count_syllables_in_line x = 5 ∧ count_syllables_in_line y = 7 ∧
        count_syllables_in_line z = 5
    · rw [if_pos (by rw [hc.1, hc.2.1, hc.2.2]), if_pos hc, hc.1, hc.2.1, hc.2.2]
    · rw [if_neg (fun he => hc ⟨congrArg Prod.fst he,
        congrArg (fun q => q.2.1) he, congrArg (fun q => q.2.2) he⟩), if_neg hc]
  · intro t a l h3
    have hz : (((splitNl (normNewlines l.data)).map
        (fun ln => String.mk (pyStrip ln))).filter
          (fun ln => !(is_noise_line ln))).length - 2 = 0 := by
      have : (contentLines l).length =
          (((splitNl (normNewlines l.data)).map
            (fun ln => String.mk (pyStrip ln))).filter
              (fun ln => !(is_noise_line ln))).length := rfl
      omega
    simp only [find_haikus_in_lyrics, hz]
    rfl

/-- A list is a Boolean prefix of itself followed by anything. -/
theorem isPrefixOf_self_append : ∀ (t r : List Char), t.isPrefixOf (t ++ r) = true := by
  intro t r
  induction t with
  | nil => cases r <;> rfl
  | cons a as ih => simp [List.isPrefixOf, ih]

/-- A Boolean prefix decomposes the list as itself plus the drop. -/
theorem isPrefixOf_append_drop : ∀ (u s : List Char),
    u.isPrefixOf s = true → s = u ++ s.drop u.length := by
  intro u
  induction u with
  | nil => intro s _; simp
  | cons a as ih =>
    intro s h
    cases s with
    | nil => simp [List.isPrefixOf] at h
    | cons b bs =>
      simp only [List.isPrefixOf, Bool.and_eq_true] at h
      obtain ⟨hab, hpre⟩ := h
      have hab2 : a = b := eq_of_beq hab
      subst hab2
      rw [List.length_cons, List.drop_succ_cons, List.cons_append]
      exact congrArg (List.cons a) (ih bs hpre)

/-- Every filler token is non-empty and starts with a non-separator. -/
theorem tok_shape (t : List Char) (ht : IsFillerTok t) :
    ∃ c0 cs, t = c0 :: cs ∧ isSepChar c0 = false := by
  rcases ht with hf | ⟨k, hk, he⟩
  · simp only [fixedToks, List.mem_cons, List.not_mem_nil, or_false] at hf
    rcases hf with rfl | rfl | rfl | rfl | rfl <;> exact ⟨_, _, rfl, by decide⟩
  · cases k with
    | zero => exact absurd hk (lt_irrefl 0)
    | succ k2 =>
      refine ⟨'o', List.replicate k2 'o' ++ ['h'], ?_, by decide⟩
      rw [he]
      simp [List.replicate_succ]

/-- `dropWhile` consumes an all-satisfying prefix and stops at a failing
head. -/
theorem dropWhile_append_of_all {q : Char → Bool} :
    ∀ (sp : List Char) (c0 : Char) (tail : List Char),
      (∀ c ∈ sp, q c = true) → q c0 = false →
      ((sp ++ (c0 :: tail)).dropWhile q) = c0 :: tail := by
  intro sp
  induction sp with
  | nil => intro c0 tail _ hc0; simp [List.dropWhile_cons, hc0]
  | cons a as ih =>
    intro c0 tail hall hc0
    rw [List.cons_append, List.dropWhile_cons, if_pos (hall a (by simp))]
    exact ih c0 tail (fun c hc => hall c (by simp [hc])) hc0

/-- Taking the length of the `takeWhile` prefix gives the prefix back. -/
theorem take_takeWhile_length {q : Char → Bool} :
    ∀ s : List Char, s.take ((s.takeWhile q).length) = s.takeWhile q := by
  intro s
  induction s with
  | nil => rfl
  | cons c cs ih =>
    rw [List.takeWhile_cons]
    by_cases hc : q c = true
    · rw [if_pos hc]
      simp [ih]
    · rw [if_neg hc]
      rfl

/-- Every element of a `takeWhile` prefix satisfies the predicate. -/
theorem takeWhile_all {q : Char → Bool} :
    ∀ s : List Char, ∀ c ∈ s.takeWhile q, q c = true := by
  intro s
  induction s with
  | nil => intro c hc; simp at hc
  | cons d cs ih =>
    intro c hc
    rw [List.takeWhile_cons] at hc
    by_cases hd : q d = true
    · rw [if_pos hd] at hc
      rcases List.mem_cons.mp hc with rfl | hc2
      · exact hd
      · exact ih c hc2
    · rw [if_neg hd] at hc
      simp at hc

/-- A list whose elements are all `x` is a `replicate`. -/
theorem eq_replicate_of_all_eq :
    ∀ (l : List Char) (x : Char), (∀ c ∈ l, c = x) → l = List.replicate l.length x := by
  intro l
  induction l with
  | nil => intro x _; rfl
  | cons c cs ih =>
    intro x hall
    rw [List.length_cons, List.replicate_succ, hall c (by simp)]
    exact congrArg (List.cons x) (ih x (fun d hd => hall d (by simp [hd])))

/-- The maximal `o`-run of `o^k h r` is exactly `o^k`. -/
theorem takeWhile_oh (k : Nat) (r : List Char) :
    ((List.replicate k 'o' ++ ('h' :: r)).takeWhile (fun c => c == 'o'))
      = List.replicate k 'o' := by
  induction k with
  | zero => simp [List.takeWhile_cons]
  | succ k2 ih => simp [List.replicate_succ, List.takeWhile_cons, ih]

/-- Soundness of `tokenSplits`: every split is a filler token plus the
remainder of the input. -/
theorem tokenSplits_sound {s t r : List Char} (h : (t, r) ∈ tokenSplits s) :
    IsFillerTok t ∧ s = t ++ r := by
  unfold tokenSplits at h
  rw [List.mem_append] at h
  rcases h with h | h
  · rw [List.mem_filterMap] at h
    obtain ⟨u, hu, he⟩ := h
    by_cases hp : u.isPrefixOf s = true
    · rw [if_pos hp] at he
      have h1 : u = t ∧ s.drop u.length = r := by
        injection he with he2
        exact ⟨congrArg Prod.fst he2, congrArg Prod.snd he2⟩
      obtain ⟨rfl, hr⟩ := h1
      refine ⟨Or.inl hu, ?_⟩
      rw [← hr]
      exact isPrefixOf_append_drop _ _ hp
    · rw [if_neg hp] at he
      exact absurd he (by simp)
  · cases ho : ohSplit s with
    | none => rw [ho] at h; simp at h
    | some p =>
      rw [ho] at h
      simp only [List.mem_singleton] at h
      subst h
      simp only [ohSplit] at ho
      by_cases hk0 : ((s.takeWhile (fun c => c == 'o')).length) = 0
      · rw [if_pos hk0] at ho
        exact absurd ho (by simp)
      · rw [if_neg hk0] at ho
        split at ho
        next c rest hd =>
          split at ho
          next hc =>
            have h2 : s.take ((s.takeWhile (fun c => c == 'o')).length) ++ ['h'] = t
                ∧ rest = r := by
              injection ho with ho2
              exact ⟨congrArg Prod.fst ho2, congrArg Prod.snd ho2⟩
            obtain ⟨ht2, hr2⟩ := h2
            have hch : c = 'h' := eq_of_beq hc
            subst hch
            constructor
            · rw [← ht2]
              right
              refine ⟨(s.takeWhile (fun c => c == 'o')).length,
                Nat.pos_of_ne_zero hk0, ?_⟩
              rw [take_takeWhile_length]
              have : s.takeWhile (fun c => c == 'o')
                  = List.replicate ((s.takeWhile (fun c => c == 'o')).length) 'o' :=
                eq_replicate_of_all_eq _ 'o'
                  (fun d hd2 => eq_of_beq (takeWhile_all s d hd2))
              rw [← this]
            · rw [← ht2, ← hr2]
              calc s = s.take ((s.takeWhile (fun c => c == 'o')).length)
                    ++ s.drop ((s.takeWhile (fun c => c == 'o')).length) :=
                  (List.take_append_drop _ _).symm
                _ = s.take ((s.takeWhile (fun c => c == 'o')).length)
                    ++ ('h' :: rest) := by rw [hd]
                _ = (s.take ((s.takeWhile (fun c => c == 'o')).length) ++ ['h'])
                    ++ rest := by rw [List.append_assoc]; rfl
          next => exact absurd ho (by simp)
        next => exact absurd ho (by simp)

/-- Completeness of `tokenSplits`: a filler token at the head of the input
is found. -/
theorem tokenSplits_complete {t : List Char} (r : List Char) (ht : IsFillerTok t) :
    (t, r) ∈ tokenSplits (t ++ r) := by
  unfold tokenSplits
  rw [List.mem_append]
  rcases ht with hf | ⟨k, hk, rfl⟩
  · left
    rw [List.mem_filterMap]
    refine ⟨t, hf, ?_⟩
    rw [if_pos (isPrefixOf_self_append t r), List.drop_left]
  · right
    have hassoc : (List.replicate k 'o' ++ ['h']) ++ r
        = List.replicate k 'o' ++ ('h' :: r) := by
      rw [List.append_assoc]
      rfl
    rw [hassoc]
    have hlenk : (List.replicate k 'o').length = k := by simp
    have htk : (List.replicate k 'o' ++ ('h' :: r)).take k = List.replicate k 'o' := by
      have := List.take_left (List.replicate k 'o') ('h' :: r)
      rwa [hlenk] at this
    have hdrop : (List.replicate k 'o' ++ ('h' :: r)).drop k = 'h' :: r := by
      have := List.drop_left (List.replicate k 'o') ('h' :: r)
      rwa [hlenk] at this
    have hos : ohSplit (List.replicate k 'o' ++ ('h' :: r))
        = some (List.replicate k 'o' ++ ['h'], r) := by
      simp only [ohSplit, takeWhile_oh, List.length_replicate]
      rw [if_neg (by omega), hdrop]
      simp [htk]
    rw [hos]
    simp

/-- A token split strictly shrinks the input. -/
theorem tokenSplits_len {s t r : List Char} (h : (t, r) ∈ tokenSplits s) :
    r.length < s.length := by
  obtain ⟨ht, rfl⟩ := tokenSplits_sound h
  obtain ⟨c0, cs, rfl, _⟩ := tok_shape t ht
  simp [List.length_append]
  omega

/-- The fuelled repetition matcher accepts exactly the concatenations of
(separator run ++ token) blocks, for a token starting with a
non-separator. -/
theorem matchReps_decomp (t : List Char) (c0 : Char) (cs0 : List Char)
    (hne : t = c0 :: cs0) (hc0 : isSepChar c0 = false) :
    ∀ (fuel : Nat) (s : List Char), s.length ≤ fuel →
      (matchRepsF t fuel s = true ↔
        ∃ reps : List (List Char),
          (∀ rep ∈ reps, ∃ sp, IsSepRun sp = true ∧ rep = sp ++ t) ∧
          s = reps.flatten) := by
  intro fuel
  induction fuel with
  | zero =>
    intro s hs
    have hs0 : s = [] := List.eq_nil_of_length_eq_zero (Nat.le_zero.mp hs)
    subst hs0
    constructor
    · intro _
      exact ⟨[], by simp, rfl⟩
    · intro _
      rfl
  | succ fuel ih =>
    intro s hs
    cases s with
    | nil =>
      constructor
      · intro _
        exact ⟨[], by simp, rfl⟩
      · intro _
        rfl
    | cons c rest =>
      constructor
      · intro hm
        simp only [matchRepsF, Bool.and_eq_true] at hm
        obtain ⟨⟨hne2, hpre⟩, hrec⟩ := hm
        have hsplit : (c :: rest) = (c :: rest).takeWhile isSepChar
            ++ (c :: rest).dropWhile isSepChar :=
          (List.takeWhile_append_dropWhile isSepChar (c :: rest)).symm
        have hs1d : (c :: rest).dropWhile isSepChar
            = t ++ ((c :: rest).dropWhile isSepChar).drop t.length :=
          isPrefixOf_append_drop t _ hpre
        have hlen2 : (((c :: rest).dropWhile isSepChar).drop t.length).length ≤ fuel := by
          have h1 : ((c :: rest).dropWhile isSepChar).length ≤ (c :: rest).length :=
            dropWhile_length_le _ _
          have h2 : 0 < t.length := by rw [hne]; simp
          rw [List.length_drop]
          simp only [List.length_cons] at hs h1
          omega
        obtain ⟨reps2, hreps2, hflat⟩ := (ih _ hlen2).mp hrec
        refine ⟨((c :: rest).takeWhile isSepChar ++ t) :: reps2, ?_, ?_⟩
        · intro rep hrep
          rcases List.mem_cons.mp hrep with rfl | h2
          · refine ⟨(c :: rest).takeWhile isSepChar, ?_, rfl⟩
            exact List.all_eq_true.mpr (takeWhile_all _)
          · exact hreps2 rep h2
        · rw [List.flatten_cons]
          calc c :: rest
              = (c :: rest).takeWhile isSepChar
                ++ (c :: rest).dropWhile isSepChar := hsplit
            _ = (c :: rest).takeWhile isSepChar
                ++ (t ++ ((c :: rest).dropWhile isSepChar).drop t.length) := by
                  rw [← hs1d]
            _ = ((c :: rest).takeWhile isSepChar ++ t)
                ++ ((c :: rest).dropWhile isSepChar).drop t.length := by
                  rw [List.append_assoc]
            _ = ((c :: rest).takeWhile isSepChar ++ t) ++ reps2.flatten := by
                  rw [hflat]
      · rintro ⟨reps, hreps, hflat⟩
        cases reps with
        | nil => simp at hflat
        | cons rep0 reps2 =>
          obtain ⟨sp, hsp, rfl⟩ := hreps rep0 (by simp)
          have hspall : ∀ d ∈ sp, isSepChar d = true := List.all_eq_true.mp hsp
          have hdw : (c :: rest).dropWhile isSepChar = t ++ reps2.flatten := by
            rw [hflat, List.flatten_cons, List.append_assoc, hne]
            exact dropWhile_append_of_all sp c0 _ hspall hc0
          have hlen3 : reps2.flatten.length ≤ fuel := by
            have hq := congrArg List.length hflat
            simp only [List.flatten_cons, List.length_cons, List.length_append,
              hne] at hq
            simp only [List.length_cons] at hs
            omega
          simp only [matchRepsF, Bool.and_eq_true]
          refine ⟨⟨by rw [hne]; rfl, ?_⟩, ?_⟩
          · rw [hdw]
            exact isPrefixOf_self_append t _
          · rw [hdw, List.drop_left]
            exact (ih reps2.flatten hlen3).mpr
              ⟨reps2, fun rep h2 => hreps rep (by simp [h2]), rfl⟩

/-- `matchReps` (with its own fuel) accepts exactly the block
concatenations. -/
theorem matchReps_iff (t s : List Char) (c0 : Char) (cs0 : List Char)
    (hne : t = c0 :: cs0) (hc0 : isSepChar c0 = false) :
    matchReps t s = true ↔
      ∃ reps : List (List Char),
        (∀ rep ∈ reps, ∃ sp, IsSepRun sp = true ∧ rep = sp ++ t) ∧
        s = reps.flatten :=
  matchReps_decomp t c0 cs0 hne hc0 s.length s le_rfl

/-- The fuelled filler matcher accepts exactly the repeated-filler
language `FillerLang`. -/
theorem fillerF_iff :
    ∀ (fuel : Nat) (s : List Char), s.length ≤ fuel →
      (fillerF fuel s = true ↔ FillerLang s) := by
  intro fuel
  induction fuel with
  | zero =>
    intro s hs
    have hs0 : s = [] := List.eq_nil_of_length_eq_zero (Nat.le_zero.mp hs)
    subst hs0
    constructor
    · intro h
      simp [fillerF] at h
    · rintro ⟨pre, t, reps, hpre, ht, hreps, hflat⟩
      obtain ⟨c0, cs0, rfl, _⟩ := tok_shape t ht
      have := congrArg List.length hflat
      simp [List.length_append] at this
      omega
  | succ fuel ih =>
    intro s hs
    constructor
    · intro hm
      simp only [fillerF, List.any_eq_true] at hm
      obtain ⟨p, hmem, hor⟩ := hm
      obtain ⟨t, r⟩ := p
      obtain ⟨ht, rfl⟩ := tokenSplits_sound hmem
      rw [Bool.or_eq_true] at hor
      rcases hor with hreps | hrec
      · obtain ⟨c0, cs0, hne, hc0⟩ := tok_shape t ht
        obtain ⟨reps, hr2, rfl⟩ := (matchReps_iff t r c0 cs0 hne hc0).mp hreps
        exact ⟨[], t, reps, by simp, ht, hr2, by simp⟩
      · have hrl : r.length ≤ fuel := by
          have := tokenSplits_len hmem
          omega
        obtain ⟨pre2, t2, reps2, hp2, ht2, hr2, hfl⟩ := (ih r hrl).mp hrec
        refine ⟨t :: pre2, t2, reps2, ?_, ht2, hr2, ?_⟩
        · intro u hu
          rcases List.mem_cons.mp hu with rfl | h2
          · exact ht
          · exact hp2 u h2
        · rw [hfl]
          simp [List.flatten_cons, List.append_assoc]
    · rintro ⟨pre, t, reps, hpre, ht, hreps, hflat⟩
      simp only [fillerF, List.any_eq_true]
      cases pre with
      | nil =>
        have hs2 : s = t ++ reps.flatten := by simpa using hflat
        refine ⟨(t, reps.flatten), ?_, ?_⟩
        · rw [hs2]
          exact tokenSplits_complete _ ht
        · rw [Bool.or_eq_true]
          left
          obtain ⟨c0, cs0, hne, hc0⟩ := tok_shape t ht
          exact (matchReps_iff t reps.flatten c0 cs0 hne hc0).mpr ⟨reps, hreps, rfl⟩
      | cons u pre2 =>
        have hu : IsFillerTok u := hpre u (by simp)
        have hs2 : s = u ++ ((pre2.flatten ++ t) ++ reps.flatten) := by
          rw [hflat]
          simp [List.flatten_cons, List.append_assoc]
        have hlen : ((pre2.flatten ++ t) ++ reps.flatten).length ≤ fuel := by
          obtain ⟨c0, cs0, he, _⟩ := tok_shape u hu
          have hq := congrArg List.length hs2
          simp only [List.length_append, he, List.length_cons] at hq
          simp only [List.length_append]
          omega
        refine ⟨(u, (pre2.flatten ++ t) ++ reps.flatten), ?_, ?_⟩
        · rw [hs2]
          exact tokenSplits_complete _ hu
        · rw [Bool.or_eq_true]
          right
          exact (ih _ hlen).mpr
            ⟨pre2, t, reps, fun v hv => hpre v (by simp [hv]), ht, hreps, rfl⟩

/-- The ad-lib regex matcher accepts exactly the repeated-filler
language. -/
theorem fillerMatch_iff (s : List Char) : fillerMatch s = true ↔ FillerLang s :=
  fillerF_iff s.length s le_rfl

/-- `closeThenWs` succeeds exactly when the input is a non-newline span, a
closing bracket, and a whitespace tail. -/
theorem closeThenWs_iff : ∀ (l : List Char),
    (closeThenWs l = true ↔
      ∃ mid cl ws2, (cl = ']' ∨ cl = ')') ∧ ('\n' ∉ mid) ∧
        (∀ c ∈ ws2, pyIsSpace c = true) ∧ l = mid ++ cl :: ws2) := by
  intro l
  induction l with
  | nil =>
    constructor
    · intro h
      simp [closeThenWs] at h
    · rintro ⟨mid, cl, ws2, _, _, _, heq⟩
      exact absurd heq (by simp)
  | cons c rest ih =>
    rw [closeThenWs]
    constructor
    · intro h
      by_cases h1 : ((c == ']' || c == ')') && rest.all pyIsSpace) = true
      · rw [Bool.and_eq_true, Bool.or_eq_true] at h1
        refine ⟨[], c, rest, ?_, by simp, ?_, by simp⟩
        · rcases h1.1 with h2 | h2
          · exact Or.inl (eq_of_beq h2)
          · exact Or.inr (eq_of_beq h2)
        · exact fun d hd => List.all_eq_true.mp h1.2 d hd
      · rw [if_neg h1] at h
        by_cases h2 : (c == '\n') = true
        · rw [if_pos h2] at h
          exact absurd h (by simp)
        · rw [if_neg h2] at h
          obtain ⟨mid, cl, ws2, hcl, hnl, hws, heq⟩ := ih.mp h
          refine ⟨c :: mid, cl, ws2, hcl, ?_, hws, by rw [heq]; rfl⟩
          intro hmem
          rcases List.mem_cons.mp hmem with he | h3
          · exact h2 (by rw [← he]; rfl)
          · exact hnl h3
    · rintro ⟨mid, cl, ws2, hcl, hnl, hws, heq⟩
      by_cases h1 : ((c == ']' || c == ')') && rest.all pyIsSpace) = true
      · rw [if_pos h1]
      · rw [if_neg h1]
        cases mid with
        | nil =>
          injection heq with e1 e2
          exfalso
          apply h1
          rw [Bool.and_eq_true, Bool.or_eq_true]
          constructor
          · rcases hcl with h4 | h4
            · left
              rw [e1, h4]
              rfl
            · right
              rw [e1, h4]
              rfl
          · rw [e2]
            exact List.all_eq_true.mpr hws
        | cons m0 mid2 =>
          injection heq with e1 e2
          have hc2 : ¬ (c == '\n') = true := by
            intro hb
            apply hnl
            have hm0 : m0 = '\n' := by rw [← e1]; exact eq_of_beq hb
            exact List.mem_cons.mpr (Or.inl hm0.symm)
          rw [if_neg hc2]
          exact ih.mpr
            ⟨mid2, cl, ws2, hcl,
             fun h3 => hnl (List.mem_cons.mpr (Or.inr h3)), hws, e2⟩

/-- Stripping trailing whitespace from a list ending in a non-whitespace
character followed by whitespace gives the part up to that character. -/
theorem stripRight_of_append (a tail : List Char) (c : Char)
    (hws : ∀ d ∈ tail, pyIsSpace d = true) (hc : pyIsSpace c = false) :
    (((a ++ (c :: tail)).reverse).dropWhile pyIsSpace).reverse = a ++ [c] := by
  rw [List.reverse_append, List.reverse_cons, List.append_assoc,
    List.singleton_append]
  rw [dropWhile_append_of_all tail.reverse c a.reverse
    (fun d hd => hws d (List.mem_reverse.mp hd)) hc]
  simp

/-- Every list is its right-strip plus an all-whitespace tail. -/
theorem stripRight_decomp (l : List Char) :
    ∃ tail, (∀ d ∈ tail, pyIsSpace d = true) ∧
      l = (l.reverse.dropWhile pyIsSpace).reverse ++ tail := by
  refine ⟨(l.reverse.takeWhile pyIsSpace).reverse, ?_, ?_⟩
  · intro d hd
    exact takeWhile_all _ d (List.mem_reverse.mp hd)
  · have h1 : l.reverse = l.reverse.takeWhile pyIsSpace
        ++ l.reverse.dropWhile pyIsSpace :=
      (List.takeWhile_append_dropWhile _ _).symm
    calc l = l.reverse.reverse := (List.reverse_reverse l).symm
      _ = (l.reverse.takeWhile pyIsSpace ++ l.reverse.dropWhile pyIsSpace).reverse := by
          rw [← h1]
      _ = (l.reverse.dropWhile pyIsSpace).reverse
          ++ (l.reverse.takeWhile pyIsSpace).reverse := by
          rw [List.reverse_append]

/-- The stage-cue regex test holds exactly when the stripped line is a
single bracketed span. -/
theorem bracketNoise_iff (l : List Char) :
    bracketNoise l = true ↔ BracketedSpan (pyStrip l) := by
  unfold bracketNoise
  cases hdw : l.dropWhile pyIsSpace with
  | nil =>
    have hstrip : pyStrip l = [] := by
      unfold pyStrip
      rw [hdw]
      rfl
    constructor
    · intro h
      simp at h
    · rintro ⟨op, mid, cl, _, _, _, heq⟩
      rw [hstrip] at heq
      exact absurd heq (by simp)
  | cons c rest =>
    have hstrip : pyStrip l = ((c :: rest).reverse.dropWhile pyIsSpace).reverse := by
      unfold pyStrip
      rw [hdw]
    constructor
    · intro h
      rw [Bool.and_eq_true] at h
      obtain ⟨hop, hcw⟩ := h
      obtain ⟨mid, cl, ws2, hcl, hnl, hws, heq⟩ := (closeThenWs_iff rest).mp hcw
      have hclws : pyIsSpace cl = false := by
        rcases hcl with h4 | h4 <;> rw [h4] <;> rfl
      have hval : pyStrip l = c :: (mid ++ [cl]) := by
        rw [hstrip, heq]
        exact stripRight_of_append (c :: mid) ws2 cl hws hclws
      refine ⟨c, mid, cl, ?_, hcl, hnl, hval⟩
      rw [Bool.or_eq_true] at hop
      rcases hop with h2 | h2
      · exact Or.inl (eq_of_beq h2)
      · exact Or.inr (eq_of_beq h2)
    · rintro ⟨op, mid, cl, hop, hcl, hnl, heq⟩
      obtain ⟨tail, htail, hdec⟩ := stripRight_decomp (l.dropWhile pyIsSpace)
      rw [hdw] at hdec
      rw [← hstrip, heq] at hdec
      injection hdec with e1 e2
      rw [Bool.and_eq_true]
      constructor
      · rw [Bool.or_eq_true]
        rcases hop with h2 | h2
        · left
          rw [e1, h2]
          rfl
        · right
          rw [e1, h2]
          rfl
      · apply (closeThenWs_iff rest).mpr
        refine ⟨mid, cl, tail, hcl, hnl, htail, ?_⟩
        rw [e2]
        show (mid ++ [cl]) ++ tail = mid ++ cl :: tail
        rw [List.append_assoc]
        rfl

/-- C6: `is_noise_line` holds exactly for whitespace-only lines, lines
whose trimmed form is a single bracketed/parenthesized span, and lines
whose trimmed lower-cased form is in the repeated-filler language — and
the claim's five concrete examples. -/
theorem claim_c6_noise_characterization :
    (∀ line : String, is_noise_line line = true ↔
      (pyStrip line.data = [] ∨ BracketedSpan (pyStrip line.data) ∨
        FillerLang (pyLower (pyStrip line.data)))) ∧
    is_noise_line "" = true ∧ is_noise_line "   " = true ∧
    is_noise_line "[Chorus]" = true ∧ is_noise_line "la la la" = true ∧
    is_noise_line "Walking down the street" = false := by
  refine ⟨?_, by decide, by decide, by decide, by decide, by decide⟩
  intro line
  unfold is_noise_line
  by_cases h1 : (pyStrip line.data).isEmpty = true
  · rw [if_pos h1]
    simp only [true_iff]
    left
    cases hl : pyStrip line.data with
    | nil => rfl
    | cons c cs =>
      rw [hl] at h1
      simp at h1
  · rw [if_neg h1]
    have h1e : ¬ (pyStrip line.data = []) := by
      intro he
      apply h1
      rw [he]
      rfl
    by_cases h2 : bracketNoise line.data = true
    · rw [if_pos h2]
      simp only [true_iff]
      exact Or.inr (Or.inl ((bracketNoise_iff line.data).mp h2))
    · rw [if_neg h2]
      constructor
      · intro h3
        exact Or.inr (Or.inr ((fillerMatch_iff _).mp h3))
      · intro h3
        rcases h3 with h4 | h4 | h4
        · exact absurd h4 h1e
        · exact absurd ((bracketNoise_iff line.data).mpr h4) h2
        · exact (fillerMatch_iff _).mpr h4

/-- C10 as stated is false at the concrete line "lana na": the claim's
first-token reading of the backreference classifies it as content, but
the source's regex captures the LAST iteration of the filler group
("la"·"na" concatenated, capture "na"), so the line is noise. -/
theorem claim_c10_firstTok_counterexample :
    is_noise_line_firstTok "lana na" = false ∧
    is_noise_line "lana na" = true := by
  constructor
  · decide
  · decide

/-- C10 amended: the repetition part repeats the token captured by the
last iteration of the initial filler run (Python repeated-group capture):
the filler rule accepts exactly the language of token sequences followed
by repetitions of (separators + last token); homogeneous repeats are
noise, the mixed line "la na la" is content, and the glued line
"lana na" is noise. -/
theorem claim_c10_lastTok_amended :
    (∀ s : List Char, fillerMatch s = true ↔ FillerLang s) ∧
    is_noise_line "la la la" = true ∧
    is_noise_line "yeah, yeah" = true ∧
    is_noise_line "lana na" = true ∧
    is_noise_line "la na la" = false :=
  ⟨fillerMatch_iff, by decide, by decide, by decide, by decide⟩

/-- Witness for the fewer-than-3-content-lines conjunct of C1 at the
empty lyric text. -/
theorem claim_c1_detector_witness :
    (contentLines "").length < 3 ∧ find_haikus_in_lyrics "t" "a" "" = [] :=
  ⟨by decide, claim_c1_detector.2.1 "t" "a" "" (by decide)⟩
